import Mathlib

/-!
Verification of the InteractiveFusion duty-cycle controller
(src/arduino/main.cpp), a single control loop that reads ASCII bytes
from serial input, accumulates decimal digits into a buffer, parses the
buffer when a newline arrives, stores the value into the duty variable
`pwn` when it lies in [0, 255], and writes `pwn` to the PWM pin once per
loop iteration.

The embedding is shallow: serial bytes are `Char`s, the `String buffer`
is a `List Char`, the `int pwn` is an `Int`, and one iteration of the
`while (Serial.available())` drain is a fold of the per-character step
over the bytes available in that iteration.  Machine-integer widths
follow the AVR target of the sketch: `String::toInt` (`atol`) returns a
32-bit `long`, wrapping on overflow, and the assignment
`int value = buffer.toInt();` truncates that `long` to a 16-bit `int`;
both reductions are modelled as explicit two's-complement wraps.
-/

namespace InteractiveFusion

/-- The two pieces of process-wide state of the controller:
`pwn` is the duty value (`int pwn = 0;`) and `buffer` the accumulator
(`String buffer = "";`). -/
structure State where
  pwn : Int
  buffer : List Char
  deriving Repr, DecidableEq

/-- Initial state: `int pwn = 0; String buffer = "";`. -/
def initialState : State := { pwn := 0, buffer := [] }

/-- Arduino `isDigit(c)`: true exactly on the ASCII digits 0-9. -/
def isDigit (c : Char) : Bool := decide ('0' ≤ c) && decide (c ≤ '9')

/-- Numeric value of the leading digit run of a character list, with
accumulator `acc`; helper for the model of `String::toInt`. -/
def digitRunVal : List Char → Nat → Nat
  | [], acc => acc
  | c :: cs, acc =>
      if isDigit c then digitRunVal cs (10 * acc + (c.toNat - 48)) else acc

/-- Two's-complement reduction of an integer to a signed `w`-bit value:
the representative of `n` modulo `2 ^ w` lying in `[-2^(w-1), 2^(w-1))`.
Models the wrap of C integer conversions and overflow on the target. -/
def toSigned (w : Nat) (n : Int) : Int :=
  let m := n % 2 ^ w
  if m < 2 ^ (w - 1) then m else m - 2 ^ w

/-- Model of Arduino `String::toInt` on the accumulator buffer: `atol`
of the leading run of decimal digits, returned as a 32-bit signed `long`
(wrapping on overflow, as on the AVR target); an empty buffer converts
to 0.  The buffer only ever holds digits, so the sign and whitespace
handling of `atol` are never exercised. -/
def toInt (s : List Char) : Int := toSigned 32 (Int.ofNat (digitRunVal s 0))

/-- Numeric value of a digit sequence, written directly from the spec
wording "the numeric value of S" as the usual base-10 fold. -/
def numVal (s : List Char) : Nat :=
  s.foldl (fun a c => 10 * a + (c.toNat - 48)) 0

/-- One step of the serial-drain loop body: the `if (c == '\n') ... else
if (isDigit(c)) ... ` chain of `loop` in src/arduino/main.cpp.  The
statement `int value = buffer.toInt();` converts the returned `long` to
the 16-bit `int` of the AVR target, a two's-complement truncation. -/
def processChar (st : State) (c : Char) : State :=
  if c = '\n' then
    let value := toSigned 16 (toInt st.buffer)
    { pwn := if 0 ≤ value ∧ value ≤ 255 then value else st.pwn, buffer := [] }
  else if isDigit c then
    { st with buffer := st.buffer ++ [c] }
  else
    st

/-- Draining the bytes available in one iteration: the
`while (Serial.available())` loop consumes the bytes in arrival order. -/
def processChars (st : State) (cs : List Char) : State :=
  cs.foldl processChar st

/-- One full iteration of `loop()`: drain the available input, then
`analogWrite(PWM_PIN, pwn)` once; the second component is the value
written to the pin this iteration. -/
def loopIter (st : State) (input : List Char) : State × Int :=
  let st' := processChars st input
  (st', st'.pwn)

/-- Running the control loop over a list of per-iteration input chunks,
collecting the sequence of values written to the output pin. -/
def run : State → List (List Char) → State × List Int
  | st, [] => (st, [])
  | st, i :: is =>
      let p := loopIter st i
      let q := run p.1 is
      (q.1, p.2 :: q.2)

/-! ## Basic lemmas about the step function -/

/-- A newline is not a digit. -/
lemma isDigit_newline : isDigit '\n' = false := by decide

/-- Stepping on a digit appends it to the buffer and keeps `pwn`. -/
lemma processChar_digit (st : State) (c : Char) (h : isDigit c = true) :
    processChar st c = { st with buffer := st.buffer ++ [c] } := by
  have hne : c ≠ '\n' := by
    intro hc; rw [hc] at h; exact absurd h (by decide)
  simp [processChar, hne, h]

/-- Stepping on a byte that is neither a digit nor a newline is the
identity on the state. -/
lemma processChar_other (st : State) (c : Char) (h1 : c ≠ '\n')
    (h2 : isDigit c = false) : processChar st c = st := by
  simp [processChar, h1, h2]

/-- Stepping on a newline clears the buffer and updates `pwn` exactly
when the truncated parsed value is in range. -/
lemma processChar_newline (st : State) :
    processChar st '\n' =
      { pwn := if 0 ≤ toSigned 16 (toInt st.buffer) ∧
                  toSigned 16 (toInt st.buffer) ≤ 255
               then toSigned 16 (toInt st.buffer) else st.pwn,
        buffer := [] } := by
  simp [processChar]

/-- Draining a list of digits appends them all to the buffer and leaves
`pwn` untouched. -/
lemma processChars_digits (S : List Char) (h : ∀ c ∈ S, isDigit c = true) :
    ∀ st : State, processChars st S = { st with buffer := st.buffer ++ S } := by
  induction S with
  | nil => intro st; simp [processChars]
  | cons c cs ih =>
      intro st
      have hc : isDigit c = true := h c (List.mem_cons_self c cs)
      have hcs : ∀ x ∈ cs, isDigit x = true :=
        fun x hx => h x (List.mem_cons_of_mem c hx)
      show processChars (processChar st c) cs = _
      rw [processChar_digit st c hc, ih hcs]
      simp

/-- Draining a list of bytes that are neither digits nor newlines is the
identity on the state. -/
lemma processChars_others (cs : List Char)
    (h : ∀ c ∈ cs, c ≠ '\n' ∧ isDigit c = false) :
    ∀ st : State, processChars st cs = st := by
  induction cs with
  | nil => intro st; rfl
  | cons c cs ih =>
      intro st
      have hc := h c (List.mem_cons_self c cs)
      have hcs : ∀ x ∈ cs, x ≠ '\n' ∧ isDigit x = false :=
        fun x hx => h x (List.mem_cons_of_mem c hx)
      show processChars (processChar st c) cs = st
      rw [processChar_other st c hc.1 hc.2, ih hcs]

/-- On an all-digit list `digitRunVal` consumes the whole list, matching
the base-10 fold, for any running accumulator. -/
lemma digitRunVal_all_digits (S : List Char) (h : ∀ c ∈ S, isDigit c = true) :
    ∀ acc : Nat,
      digitRunVal S acc = S.foldl (fun a c => 10 * a + (c.toNat - 48)) acc := by
  induction S with
  | nil => intro acc; rfl
  | cons c cs ih =>
      intro acc
      have hc : isDigit c = true := h c (List.mem_cons_self c cs)
      have hcs : ∀ x ∈ cs, isDigit x = true :=
        fun x hx => h x (List.mem_cons_of_mem c hx)
      simp [digitRunVal, hc, ih hcs]

/-- A two's-complement reduction is the identity on values already in
the representable non-negative range. -/
lemma toSigned_eq_self (w : Nat) (n : Int) (h0 : 0 ≤ n)
    (h : n < 2 ^ (w - 1)) : toSigned w n = n := by
  have hpow : (2 : Int) ^ (w - 1) ≤ 2 ^ w :=
    pow_le_pow_right₀ (by norm_num) (Nat.sub_le w 1)
  have hn : n % 2 ^ w = n := Int.emod_eq_of_lt h0 (lt_of_lt_of_le h hpow)
  simp [toSigned, hn, h]

/-- On an all-digit list whose numeric value is at most 32767 (the
largest positive 16-bit `int`), neither the 32-bit `long` wrap of `atol`
nor the 16-bit `int` truncation changes the value: the stored candidate
equals the spec-side numeric value of the digit sequence. -/
lemma value_eq_numVal (S : List Char) (h : ∀ c ∈ S, isDigit c = true)
    (hb : numVal S ≤ 32767) :
    toSigned 16 (toInt S) = (numVal S : Int) := by
  have hcast : (Int.ofNat (digitRunVal S 0)) = (numVal S : Int) := by
    simp [numVal, digitRunVal_all_digits S h 0]
  have hble : (numVal S : Int) ≤ 32767 := by exact_mod_cast hb
  have h2 : toInt S = (numVal S : Int) := by
    show toSigned 32 (Int.ofNat (digitRunVal S 0)) = (numVal S : Int)
    rw [hcast]
    exact toSigned_eq_self 32 _ (Int.natCast_nonneg _)
      (lt_of_le_of_lt hble (by norm_num))
  rw [h2]
  exact toSigned_eq_self 16 _ (Int.natCast_nonneg _)
    (lt_of_le_of_lt hble (by norm_num))

/-- Draining `cs ++ [c]` is draining `cs` and then stepping on `c`. -/
lemma processChars_append_one (st : State) (cs : List Char) (c : Char) :
    processChars st (cs ++ [c]) = processChar (processChars st cs) c := by
  simp [processChars, List.foldl_append]

/-- A newline arriving on an empty buffer parses 0, which survives both
wraps and is in range, so the duty value becomes 0 and the buffer stays
empty. -/
lemma processChar_newline_empty (d : Int) :
    processChar { pwn := d, buffer := [] } '\n' = { pwn := 0, buffer := [] } := by
  have h1 : toInt ([] : List Char) = 0 := by
    show toSigned 32 (Int.ofNat (digitRunVal [] 0)) = 0
    exact toSigned_eq_self 32 0 le_rfl (by norm_num)
  have h2 : toSigned 16 (toInt ([] : List Char)) = 0 := by
    rw [h1]
    exact toSigned_eq_self 16 0 le_rfl (by norm_num)
  simp [processChar, h2]

/-- One step keeps the duty value inside [0, 255]. -/
lemma processChar_preserves_range (st : State) (c : Char)
    (h : 0 ≤ st.pwn ∧ st.pwn ≤ 255) :
    0 ≤ (processChar st c).pwn ∧ (processChar st c).pwn ≤ 255 := by
  by_cases hc : c = '\n'
  · subst hc
    rw [processChar_newline]
    by_cases hr : 0 ≤ toSigned 16 (toInt st.buffer) ∧
      toSigned 16 (toInt st.buffer) ≤ 255
    · simp [hr]
    · simpa [hr] using h
  · by_cases hd : isDigit c = true
    · rw [processChar_digit st c hd]; exact h
    · have hd' : isDigit c = false := by simpa using hd
      rw [processChar_other st c hc hd']; exact h

/-- Draining any byte list keeps the duty value inside [0, 255]. -/
lemma processChars_preserves_range (cs : List Char) :
    ∀ st : State, 0 ≤ st.pwn ∧ st.pwn ≤ 255 →
      0 ≤ (processChars st cs).pwn ∧ (processChars st cs).pwn ≤ 255 := by
  induction cs with
  | nil => intro st h; exact h
  | cons c cs ih =>
      intro st h
      exact ih (processChar st c) (processChar_preserves_range st c h)

/-! ## Claim theorems -/

/-- C1 counterexample: the digit sequence `65536` has numeric value
greater than 255, yet processing `65536\n` after duty value 50 changes
the duty value: `atol` returns `65536L`, the 16-bit `int` truncation
wraps it to 0, which passes the range check and overwrites 50. -/
theorem overflow_line_counterexample :
    (∀ c ∈ (['6', '5', '5', '3', '6'] : List Char), isDigit c = true) ∧
    255 < numVal ['6', '5', '5', '3', '6'] ∧
    ¬ (processChars { pwn := 50, buffer := [] }
        (['6', '5', '5', '3', '6'] ++ ['\n'])).pwn = 50 := by
  refine ⟨by decide, by decide, ?_⟩
  decide

/-- C1 (amended): for every digit sequence S followed by a newline whose
numeric value exceeds 255 but is at most 32767 (the largest positive
16-bit `int`, below which no conversion wraps), processing the line from
an empty buffer leaves the duty value unchanged, for any prior duty
value. -/
theorem overflow_line_preserves_duty (d : Int) (S : List Char)
    (hS : ∀ c ∈ S, isDigit c = true) (hv : 255 < numVal S)
    (hb : numVal S ≤ 32767) :
    (processChars { pwn := d, buffer := [] } (S ++ ['\n'])).pwn = d := by
  rw [processChars_append_one, processChars_digits S hS, processChar_newline]
  have hgt : ¬ toSigned 16 (toInt S) ≤ 255 := by
    rw [value_eq_numVal S hS hb]
    simp only [not_le]
    exact_mod_cast hv
  simp [hgt]

/-- Witness for C1: input `999\n` after duty value 50 leaves it at 50. -/
theorem overflow_line_preserves_duty_w :
    (∀ c ∈ (['9', '9', '9'] : List Char), isDigit c = true) ∧
    255 < numVal ['9', '9', '9'] ∧ numVal ['9', '9', '9'] ≤ 32767 ∧
    (processChars { pwn := 50, buffer := [] }
      (['9', '9', '9'] ++ ['\n'])).pwn = 50 :=
  ⟨by decide, by decide, by decide,
    overflow_line_preserves_duty 50 ['9', '9', '9'] (by decide) (by decide)
      (by decide)⟩

/-- C2: the duty value starts at 0 and, after processing any sequence of
input bytes from the initial state, always lies within [0, 255]. -/
theorem duty_value_invariant :
    initialState.pwn = 0 ∧
    ∀ cs : List Char,
      0 ≤ (processChars initialState cs).pwn ∧
      (processChars initialState cs).pwn ≤ 255 :=
  ⟨rfl, fun cs =>
    processChars_preserves_range cs initialState (by norm_num [initialState])⟩

/-- C3: for every digit sequence S of length 1 to 3 followed by a
newline, if the numeric value of S is within [0, 255], processing the
line from an empty buffer sets the duty value to that numeric value. -/
theorem valid_line_sets_duty (d : Int) (S : List Char)
    (_hlen : 1 ≤ S.length ∧ S.length ≤ 3)
    (hS : ∀ c ∈ S, isDigit c = true) (hv : numVal S ≤ 255) :
    (processChars { pwn := d, buffer := [] } (S ++ ['\n'])).pwn =
      (numVal S : Int) := by
  rw [processChars_append_one, processChars_digits S hS]
  simp only [List.nil_append]
  rw [processChar_newline]
  have hval := value_eq_numVal S hS (le_trans hv (by norm_num))
  have hr : 0 ≤ toSigned 16 (toInt S) ∧ toSigned 16 (toInt S) ≤ 255 := by
    rw [hval]
    exact ⟨by positivity, by exact_mod_cast hv⟩
  dsimp only
  rw [if_pos hr, hval]

/-- Witness for C3: input `128\n` sets the duty value to 128. -/
theorem valid_line_sets_duty_w :
    (1 ≤ (['1', '2', '8'] : List Char).length ∧
      (['1', '2', '8'] : List Char).length ≤ 3) ∧
    (∀ c ∈ (['1', '2', '8'] : List Char), isDigit c = true) ∧
    numVal ['1', '2', '8'] ≤ 255 ∧
    (processChars { pwn := 0, buffer := [] }
      (['1', '2', '8'] ++ ['\n'])).pwn = (numVal ['1', '2', '8'] : Int) :=
  ⟨by decide, by decide, by decide,
    valid_line_sets_duty 0 ['1', '2', '8'] (by decide) (by decide) (by decide)⟩

/-- C4: a byte that is neither an ASCII digit nor a newline leaves both
the accumulator buffer and the duty value unchanged, for every state. -/
theorem other_byte_is_noop (st : State) (c : Char)
    (h1 : c ≠ '\n') (h2 : isDigit c = false) :
    processChar st c = st :=
  processChar_other st c h1 h2

/-- Witness for C4: the byte `x` leaves the state `(5, "1")` intact. -/
theorem other_byte_is_noop_w :
    ('x' : Char) ≠ '\n' ∧ isDigit 'x' = false ∧
    processChar { pwn := 5, buffer := ['1'] } 'x' =
      { pwn := 5, buffer := ['1'] } :=
  ⟨by decide, by decide,
    other_byte_is_noop { pwn := 5, buffer := ['1'] } 'x' (by decide) (by decide)⟩

/-- C5: processing `7a5` from an empty buffer discards the `a` and
retains the digits `7` and `5`; the following newline then sets the duty
value to 75 and clears the buffer, for every prior duty value. -/
theorem line_7a5_yields_75 (d : Int) :
    processChars { pwn := d, buffer := [] } ['7', 'a', '5'] =
      { pwn := d, buffer := ['7', '5'] } ∧
    processChars { pwn := d, buffer := [] } ['7', 'a', '5', '\n'] =
      { pwn := 75, buffer := [] } := by
  have h1 : processChars { pwn := d, buffer := [] } ['7', 'a', '5'] =
      { pwn := d, buffer := ['7', '5'] } := by
    show processChar (processChar (processChar
      { pwn := d, buffer := [] } '7') 'a') '5' = _
    rw [processChar_digit _ _ (by decide),
      processChar_other _ _ (by decide) (by decide),
      processChar_digit _ _ (by decide)]
    simp
  refine ⟨h1, ?_⟩
  have h2 : (['7', 'a', '5', '\n'] : List Char) = ['7', 'a', '5'] ++ ['\n'] :=
    rfl
  rw [h2, processChars_append_one, h1, processChar_newline]
  have hval : toSigned 16 (toInt ['7', '5']) = (75 : Int) := by
    have h3 := value_eq_numVal ['7', '5'] (by decide) (by decide)
    rw [h3]
    decide
  dsimp only
  rw [hval, if_pos (by norm_num : (0 : Int) ≤ 75 ∧ (75 : Int) ≤ 255)]

/-- C6: a newline arriving while the accumulator buffer is empty sets
the duty value to 0, for every prior duty value. -/
theorem empty_line_sets_zero (d : Int) :
    processChar { pwn := d, buffer := [] } '\n' = { pwn := 0, buffer := [] } :=
  processChar_newline_empty d

/-- C7: after processing a newline the accumulator buffer is empty, for
every prior state, whether or not the parsed value was in range. -/
theorem newline_clears_buffer (st : State) :
    (processChar st '\n').buffer = [] := by
  rw [processChar_newline]

/-- C8: every loop iteration emits exactly one output write, and the
value written is the duty value after draining that iteration's
available input. -/
theorem output_write_once_per_iteration :
    (∀ (st : State) (ins : List (List Char)),
      ((run st ins).2).length = ins.length) ∧
    (∀ (st : State) (input : List Char),
      (loopIter st input).2 = (processChars st input).pwn) := by
  refine ⟨?_, fun st input => rfl⟩
  intro st ins
  induction ins generalizing st with
  | nil => rfl
  | cons i is ih => simp [run, ih]

/-- C9: a line whose bytes before the terminating newline are all
non-digits sets the duty value to 0 and leaves the buffer empty. -/
theorem nondigit_line_sets_zero (d : Int) (cs : List Char)
    (h : ∀ c ∈ cs, c ≠ '\n' ∧ isDigit c = false) :
    processChars { pwn := d, buffer := [] } (cs ++ ['\n']) =
      { pwn := 0, buffer := [] } := by
  rw [processChars_append_one, processChars_others cs h]
  exact processChar_newline_empty d

/-- Witness for C9: the line `a-\n` after duty value 7 sets it to 0. -/
theorem nondigit_line_sets_zero_w :
    (∀ c ∈ (['a', '-'] : List Char), c ≠ '\n' ∧ isDigit c = false) ∧
    processChars { pwn := 7, buffer := [] } (['a', '-'] ++ ['\n']) =
      { pwn := 0, buffer := [] } :=
  ⟨by decide, nondigit_line_sets_zero 7 ['a', '-'] (by decide)⟩

/-- C10: processing is deterministic: two runs from the same state that
receive the same per-iteration input chunks end in the same state and
produce the same sequence of output-pin writes. -/
theorem processing_deterministic (s1 s2 : State)
    (in1 in2 : List (List Char)) (h1 : s1 = s2) (h2 : in1 = in2) :
    run s1 in1 = run s2 in2 := by
  rw [h1, h2]

/-- Witness for C10: two identical runs on the line `1\n` agree. -/
theorem processing_deterministic_w :
    run { pwn := 0, buffer := [] } [['1', '\n']] =
      run { pwn := 0, buffer := [] } [['1', '\n']] :=
  processing_deterministic { pwn := 0, buffer := [] }
    { pwn := 0, buffer := [] } [['1', '\n']] [['1', '\n']] rfl rfl

end InteractiveFusion
